import Mathlib

/-!
Shallow embedding of the statement line-item parser in
`scr/pdf_invoice_extractor.py` (`extract_transaction_data`, the per-page
line-scanning loop at lines 57-146), together with the regular expressions
and string operations it relies on.  Machine floats never undergo
arithmetic in the source (amounts are parsed and stored), so the amount is
modelled exactly as a rational number.
-/

/-- The whitespace characters recognised by Python's `str.strip` and `\s`
for the ASCII range (the only whitespace occurring in statement text). -/
def isPySpace (c : Char) : Bool :=
  c == ' ' || c == '\t' || c == '\n' || c == '\r' || c == '\x0b' || c == '\x0c'

/-- `str.strip` on a character list: drop whitespace from both ends. -/
def pyStripList (cs : List Char) : List Char :=
  ((cs.dropWhile isPySpace).reverse.dropWhile isPySpace).reverse

/-- Python `line.strip()`. -/
def pyStrip (s : String) : String := String.mk (pyStripList s.toList)

/-- Python `s.lower()` (ASCII case folding; statement text is ASCII). -/
def pyLower (s : String) : String := String.mk (s.toList.map Char.toLower)

/-- Python `s.isdigit()` on the ASCII digits occurring in statement text:
non-empty and all characters are digits. -/
def pyIsDigit (s : String) : Bool := !s.isEmpty && s.toList.all Char.isDigit

/-- Python `s.startswith(pre)`. -/
def pyStartswith (s pre : String) : Bool :=
  s.toList.take pre.toList.length == pre.toList

/-- Substring containment, Python's `needle in hay`. -/
def hasSub : List Char → List Char → Bool
  | [], needle => needle.isEmpty
  | c :: t, needle => ((c :: t).take needle.length == needle) || hasSub t needle

/-- The twelve month abbreviations of the date regexes (line 62-63). -/
def months : List String :=
  ["Jan", "Feb", "Mar", "Apr", "May", "Jun", "Jul", "Aug", "Sep", "Oct", "Nov", "Dec"]

/-- `re.match(r'^(Jan|...|Dec)$', line)` (line 62): the line is exactly a
month abbreviation. -/
def matchMonthOnly (s : String) : Bool := months.any (fun m => m == s)

/-- `\d{1,2}` anchored on both sides: one or two digit characters. -/
def matchDayDigits (ds : List Char) : Bool :=
  (ds.length == 1 || ds.length == 2) && ds.all Char.isDigit

/-- `re.match(r'^\d{1,2}$', line)` (line 76): a bare one-or-two-digit day. -/
def matchBareDay (s : String) : Bool := matchDayDigits s.toList

/-- `re.match(r'^(Jan|...|Dec)\s+\d{1,2}$', line)` (line 63): a month
abbreviation, whitespace, then a one-or-two digit day ending the line. -/
def matchFullDate (s : String) : Bool :=
  months.any fun m =>
    let cs := s.toList
    cs.take 3 == m.toList &&
      (let rest := cs.drop 3
       !(rest.takeWhile isPySpace).isEmpty &&
         matchDayDigits (rest.dropWhile isPySpace))

/-- The character class `[\d,]` of the amount regexes (lines 100-109). -/
def isDigitOrComma (c : Char) : Bool := c.isDigit || c == ','

/-- The capture `\s*([\d,]+\.?\d*)` tried right after a `฿` character
(line 100; the variant without `\s*` at line 103 is subsumed by it). -/
def captureAfterBaht (cs : List Char) : Option (List Char) :=
  let cs2 := cs.dropWhile isPySpace
  let x := cs2.takeWhile isDigitOrComma
  let rest := cs2.dropWhile isDigitOrComma
  if x.isEmpty then none
  else
    some (x ++ (if rest.head? == some '.' then '.' :: rest.tail.takeWhile Char.isDigit else []))

/-- `re.search(r'฿\s*([\d,]+\.?\d*)', s)` (line 100): the captured group of
the leftmost successful match, tried at each `฿` occurrence in turn. -/
def searchBaht : List Char → Option (List Char)
  | [] => none
  | c :: cs =>
    if c == '฿' then
      match captureAfterBaht cs with
      | some g => some g
      | none => searchBaht cs
    else searchBaht cs

/-- `re.match(r'^([\d,]+\.?\d*)$', s)` (line 109): the whole line is
digits/commas, then optionally a dot followed by digits only. -/
def matchAmountFull (s : String) : Bool :=
  let cs := s.toList
  let x := cs.takeWhile isDigitOrComma
  let rest := cs.dropWhile isDigitOrComma
  !x.isEmpty &&
    (rest.isEmpty || (rest.head? == some '.' && rest.tail.all Char.isDigit))

/-- Numeric value of a digit string (most significant first). -/
def natFromDigits (cs : List Char) : Nat :=
  cs.foldl (fun a c => a * 10 + (c.toNat - 48)) 0

/-- Python `float(s)` on the token shapes reachable here (digits and at
most one dot, commas already stripped): `none` models the `ValueError`
raised when no digit is present, otherwise the exact decimal value. -/
def parseDecimal (s : String) : Option ℚ :=
  let cs := s.toList
  let ip := cs.takeWhile Char.isDigit
  let rest := cs.dropWhile Char.isDigit
  if rest.isEmpty then
    if ip.isEmpty then none else some ((natFromDigits ip : ℚ))
  else if rest.head? == some '.' then
    let fp := rest.tail
    if fp.all Char.isDigit && !(ip.isEmpty && fp.isEmpty) then
      some ((natFromDigits ip : ℚ) + (natFromDigits fp : ℚ) / (10 : ℚ) ^ fp.length)
    else none
  else none

/-- The boilerplate substrings excluded from the supplementary description
fragment (line 127). -/
def boilerWords : List String :=
  ["will appear", "statement", "foreign", "card", "account", "00001"]

/-- `any(x in part.lower() for x in [...])` (line 127). -/
def isBoilerFrag (part : String) : Bool :=
  boilerWords.any (fun w => hasSub (pyLower part).toList w.toList)

/-- The fragment filter of lines 126-127: non-empty, not all digits,
longer than two characters, and not boilerplate.  In the source the
boilerplate test is nested inside the other three without a `break` in its
else-path, so the loop selects the first fragment satisfying all four. -/
def qualifies (part : String) : Bool :=
  !part.isEmpty && !pyIsDigit part && decide (part.length > 2) && !isBoilerFrag part

/-- Description assembly (lines 116-130): `' '.join` of no fragments is
empty; otherwise the first fragment, plus the first later fragment passing
`qualifies`, appended with a single space. -/
def buildDescription (parts : List String) : String :=
  match parts with
  | [] => ""
  | p0 :: rest =>
    match rest.find? qualifies with
    | some p => p0 ++ " " ++ p
    | none => p0

/-- The collection filter of lines 141-144: a stripped line is appended to
`description_parts` iff it is non-empty, does not start with `Will appear`,
`FOREIGN` or `TOTRAKOOL`, and is not one of the metadata labels. -/
def collectsFragment (nl : String) : Bool :=
  !nl.isEmpty && !pyStartswith nl "Will appear" && !pyStartswith nl "FOREIGN" &&
    !(nl == "CARD" || nl == "ACCOUNT_ENDING" || nl == "CARD_MEMBER") &&
    !pyStartswith nl "TOTRAKOOL"

/-- One parsed transaction, the dict appended at lines 134-139. -/
structure Transaction where
  date : String
  description : String
  amount_thb : ℚ
  source_file : String
deriving DecidableEq, Repr

/-- The emission step (lines 113-139 after a successful amount match):
comma-stripping, description assembly, the truthiness guard
`if date_str and description and amount`, and the `float` conversion whose
failure raises (modelled as `Except.error`). -/
def tryEmit (src dateStr : String) (parts : List String) (g : List Char) :
    Except Unit (Option Transaction) :=
  let amount := String.mk (g.filter (fun c => c ≠ ','))
  let description := buildDescription parts
  if !dateStr.isEmpty && !description.isEmpty && !amount.isEmpty then
    match parseDecimal amount with
    | some q => .ok (some ⟨dateStr, description, q, src⟩)
    | none => .error ()
  else .ok none

/-- The inner collection loop (lines 92-146): starting from the lines after
the date token, collect description fragments until a line containing `฿`;
resolve the amount on that line, or — when the line is exactly `฿` — from
the next line; `break` leaves the cursor at the `฿` line (or one past it in
the two-line amount case).  Returns the optional emitted record and the
number of lines consumed before the cursor position at loop exit. -/
def collect (src dateStr : String) (parts : List String) :
    List String → Except Unit (Option Transaction × Nat)
  | [] => .ok (none, 0)
  | l :: ls =>
    let nl := pyStrip l
    if nl.toList.contains '฿' then
      match searchBaht nl.toList with
      | some g =>
        match tryEmit src dateStr parts g with
        | .error e => .error e
        | .ok t? => .ok (t?, 0)
      | none =>
        if nl = "฿" then
          match ls with
          | [] => .ok (none, 0)
          | l2 :: _ =>
            let nal := pyStrip l2
            if matchAmountFull nal then
              match tryEmit src dateStr parts nal.toList with
              | .error e => .error e
              | .ok t? => .ok (t?, 1)
            else .ok (none, 0)
        else .ok (none, 0)
    else
      let parts' := if collectsFragment nl then parts ++ [nl] else parts
      match collect src dateStr parts' ls with
      | .error e => .error e
      | .ok (t?, n) => .ok (t?, n + 1)

/-- The outer scanning loop (lines 57-146): at each cursor position try the
full-date regex, then the split month/day pair, else skip one line.  After
a date, run the collection loop and resume at its exit cursor.  An
exception during emission aborts the loop, and the surrounding
`try/except` makes the function return the transactions accumulated so far
(modelled by `Except.error acc`). -/
def scan (src : String) (lines : List String) (acc : List Transaction) :
    Except (List Transaction) (List Transaction) :=
  match lines with
  | [] => .ok acc
  | l :: ls =>
    let line := pyStrip l
    if matchFullDate line then
      match collect src line [] ls with
      | .error _ => .error acc
      | .ok (t?, n) => scan src (ls.drop n) (acc ++ t?.toList)
    else if matchMonthOnly line then
      match hls : ls with
      | [] => .ok acc
      | l2 :: ls2 =>
        if matchBareDay (pyStrip l2) then
          match collect src (line ++ " " ++ pyStrip l2) [] ls2 with
          | .error _ => .error acc
          | .ok (t?, n) => scan src (ls2.drop n) (acc ++ t?.toList)
        else scan src ls acc
    else scan src ls acc
termination_by lines.length
decreasing_by
  all_goals first
    | (simp only [hls, List.length_drop, List.length_cons]; omega)
    | (simp only [List.length_drop, List.length_cons]; omega)

/-- The outer scanning loop once more, with an explicit bound on the
number of loop iterations: `none` means the bound was exhausted.  Each
iteration of the `while` loop at line 58 strictly advances the cursor, so
a bound of one more than the number of lines always suffices
(`scanFuel_complete` below). -/
def scanFuel (src : String) : Nat → List String → List Transaction →
    Option (Except (List Transaction) (List Transaction))
  | 0, _, _ => none
  | f + 1, lines, acc =>
    match lines with
    | [] => some (.ok acc)
    | l :: ls =>
      let line := pyStrip l
      if matchFullDate line then
        match collect src line [] ls with
        | .error _ => some (.error acc)
        | .ok (t?, n) => scanFuel src f (ls.drop n) (acc ++ t?.toList)
      else if matchMonthOnly line then
        match ls with
        | [] => some (.ok acc)
        | l2 :: ls2 =>
          if matchBareDay (pyStrip l2) then
            match collect src (line ++ " " ++ pyStrip l2) [] ls2 with
            | .error _ => some (.error acc)
            | .ok (t?, n) => scanFuel src f (ls2.drop n) (acc ++ t?.toList)
          else scanFuel src f ls acc
      else scanFuel src f ls acc

/-- The transaction list the surrounding function returns: the accumulated
records whether or not an exception was caught (lines 150-153). -/
def resList (r : Except (List Transaction) (List Transaction)) : List Transaction :=
  match r with
  | .ok ts => ts
  | .error ts => ts

/-- The records `extract_transaction_data` produces for one page of
extracted text lines, given the source file name. -/
def extractPage (src : String) (lines : List String) : List Transaction :=
  resList (scan src lines [])

/-- A line that the collection loop consumes as a description fragment: it
contains no currency marker and passes the filter of lines 141-144 after
stripping. -/
def collectibleLine (l : String) : Bool :=
  !(pyStrip l).toList.contains '฿' && collectsFragment (pyStrip l)

/-- Every amount token the line can contribute (the searched capture of
line 100, and the full-line match of line 109 used after a bare `฿`)
contains at least one digit character. -/
def digitCaptures (l : String) : Bool :=
  (match searchBaht (pyStrip l).toList with
   | some g => g.any Char.isDigit
   | none => true) &&
  (!matchAmountFull (pyStrip l) || (pyStrip l).toList.any Char.isDigit)

/-- No adjacent pair of lines resolves an amount through the two-line form
of lines 106-111: a line that strips to exactly `฿` followed by a full
bare-amount line. -/
def noBareAmountPairs : List String → Bool
  | [] => true
  | [_] => true
  | l :: l2 :: rest =>
    !((pyStrip l == "฿") && matchAmountFull (pyStrip l2)) &&
      noBareAmountPairs (l2 :: rest)

/-- The shape of every token the amount regexes can capture: a non-empty
run of digits and commas, optionally followed by a dot and a run of
digits. -/
def ampShape (g : List Char) : Prop :=
  ∃ x y, g = x ++ y ∧ x ≠ [] ∧ (∀ c ∈ x, isDigitOrComma c = true) ∧
    (y = [] ∨ ∃ ds, y = '.' :: ds ∧ ∀ c ∈ ds, c.isDigit = true)

deriving instance DecidableEq for Except

theorem scanFuel_complete (f : Nat) (src : String) (lines : List String)
    (acc : List Transaction) (h : lines.length < f) :
    scanFuel src f lines acc = some (scan src lines acc) := by
  induction f generalizing lines acc with
  | zero => exact absurd h (Nat.not_lt_zero _)
  | succ f ih =>
    match lines, h with
    | [], _ => rw [scan.eq_def]; rfl
    | l :: ls, h =>
      rw [scan.eq_def]
      simp only [scanFuel]
      cases hfd : matchFullDate (pyStrip l) with
      | true =>
        simp only [hfd, if_true]
        cases hc : collect src (pyStrip l) [] ls with
        | error e => rfl
        | ok p =>
          obtain ⟨t?, n⟩ := p
          apply ih
          simp only [List.length_drop, List.length_cons] at h ⊢
          omega
      | false =>
        simp only [hfd, if_false, Bool.false_eq_true]
        cases hmo : matchMonthOnly (pyStrip l) with
        | true =>
          simp only [hmo, if_true]
          match ls with
          | [] => rfl
          | l2 :: ls2 =>
            cases hbd : matchBareDay (pyStrip l2) with
            | true =>
              simp only [hbd, if_true]
              cases hc : collect src (pyStrip l ++ " " ++ pyStrip l2) [] ls2 with
              | error e => rfl
              | ok p =>
                obtain ⟨t?, n⟩ := p
                apply ih
                simp only [List.length_drop, List.length_cons] at h ⊢
                omega
            | false =>
              simp only [hbd, if_false, Bool.false_eq_true]
              apply ih
              simp only [List.length_cons] at h ⊢
              omega
        | false =>
          simp only [hmo, if_false, Bool.false_eq_true]
          apply ih
          simp only [List.length_cons] at h ⊢
          omega

theorem scan_of_scanFuel (src : String) (L : List String) (acc : List Transaction)
    (r : Except (List Transaction) (List Transaction))
    (h : scanFuel src (L.length + 1) L acc = some r) : scan src L acc = r := by
  have h2 := scanFuel_complete (L.length + 1) src L acc (Nat.lt_succ_self _)
  rw [h] at h2
  exact (Option.some.inj h2).symm

theorem extractPage_of_scanFuel (src : String) (L : List String)
    (ts : List Transaction)
    (h : scanFuel src (L.length + 1) L [] = some (.ok ts)) :
    extractPage src L = ts := by
  unfold extractPage
  rw [scan_of_scanFuel src L [] (.ok ts) h]
  rfl

theorem extractPage_of_scanFuel_err (src : String) (L : List String)
    (ts : List Transaction)
    (h : scanFuel src (L.length + 1) L [] = some (.error ts)) :
    extractPage src L = ts := by
  unfold extractPage
  rw [scan_of_scanFuel src L [] (.error ts) h]
  rfl

theorem takeWhile_app {p : Char → Bool} (xs : List Char) (y : Char) (zs : List Char)
    (hxs : ∀ c ∈ xs, p c = true) (hy : p y = false) :
    (xs ++ y :: zs).takeWhile p = xs := by
  induction xs with
  | nil => simp [List.takeWhile, hy]
  | cons c cs ih =>
    have hc := hxs c (List.mem_cons_self c cs)
    simp only [List.cons_append, List.takeWhile_cons, hc, if_true]
    rw [ih (fun d hd => hxs d (List.mem_cons_of_mem c hd))]

theorem dropWhile_app {p : Char → Bool} (xs : List Char) (y : Char) (zs : List Char)
    (hxs : ∀ c ∈ xs, p c = true) (hy : p y = false) :
    (xs ++ y :: zs).dropWhile p = y :: zs := by
  induction xs with
  | nil => simp [List.dropWhile, hy]
  | cons c cs ih =>
    have hc := hxs c (List.mem_cons_self c cs)
    simp only [List.cons_append, List.dropWhile_cons, hc, if_true]
    exact ih (fun d hd => hxs d (List.mem_cons_of_mem c hd))

theorem takeWhile_all {p : Char → Bool} (cs : List Char)
    (h : ∀ c ∈ cs, p c = true) : cs.takeWhile p = cs := by
  induction cs with
  | nil => rfl
  | cons c cs ih =>
    simp only [List.takeWhile_cons, h c (List.mem_cons_self c cs), if_true]
    rw [ih (fun d hd => h d (List.mem_cons_of_mem c hd))]

theorem dropWhile_all_none {p : Char → Bool} (cs : List Char)
    (h : ∀ c ∈ cs, p c = true) : cs.dropWhile p = [] := by
  induction cs with
  | nil => rfl
  | cons c cs ih =>
    simp only [List.dropWhile_cons, h c (List.mem_cons_self c cs), if_true]
    exact ih (fun d hd => h d (List.mem_cons_of_mem c hd))

theorem dropWhile_id {p : Char → Bool} (cs : List Char)
    (h : ∀ c ∈ cs, p c = false) : cs.dropWhile p = cs := by
  cases cs with
  | nil => rfl
  | cons c cs => simp [List.dropWhile_cons, h c (List.mem_cons_self c cs)]

theorem pyStripList_id (cs : List Char) (h : ∀ c ∈ cs, isPySpace c = false) :
    pyStripList cs = cs := by
  unfold pyStripList
  rw [dropWhile_id cs h, dropWhile_id cs.reverse (fun c hc => h c (List.mem_reverse.mp hc)),
    List.reverse_reverse]

theorem strMk_toList (s : String) : String.mk s.toList = s := rfl

theorem pyStrip_id (s : String) (h : ∀ c ∈ s.toList, isPySpace c = false) :
    pyStrip s = s := by
  unfold pyStrip
  rw [pyStripList_id s.toList h, strMk_toList]

theorem pyStripList_sandwich (a b : Char) (l : List Char)
    (ha : isPySpace a = false) (hb : isPySpace b = false) :
    pyStripList (a :: (l ++ [b])) = a :: (l ++ [b]) := by
  unfold pyStripList
  rw [List.dropWhile_cons]
  simp only [ha, Bool.false_eq_true, if_false]
  rw [show (a :: (l ++ [b])).reverse = b :: (l.reverse ++ [a]) by simp]
  rw [List.dropWhile_cons]
  simp only [hb, Bool.false_eq_true, if_false]
  simp

theorem isDigit_not_space (c : Char) (h : c.isDigit = true) : isPySpace c = false := by
  by_contra hns
  rw [Bool.not_eq_false] at hns
  simp only [isPySpace, Bool.or_eq_true, beq_iff_eq] at hns
  rcases hns with ((((rfl | rfl) | rfl) | rfl) | rfl) | rfl <;> exact absurd h (by decide)

theorem isDigit_ne_comma (c : Char) (h : c.isDigit = true) : c ≠ ',' := by
  rintro rfl
  exact absurd h (by decide)

theorem isEmpty_iff_toList (s : String) : s.isEmpty = true ↔ s.toList = [] := by
  rw [String.isEmpty_iff]
  constructor
  · rintro rfl; rfl
  · intro h
    rw [← strMk_toList s, h]

theorem months_no_baht : ∀ m ∈ months, '฿' ∉ m.toList := by decide

theorem matchFullDate_no_baht (s : String) (hb : '฿' ∈ s.toList) :
    matchFullDate s = false := by
  by_contra h
  rw [Bool.not_eq_false] at h
  unfold matchFullDate at h
  rw [List.any_eq_true] at h
  obtain ⟨m, hm, hf⟩ := h
  simp only [Bool.and_eq_true, beq_iff_eq, Bool.not_eq_true', List.isEmpty_eq_false] at hf
  obtain ⟨h1, h2, h3⟩ := hf
  unfold matchDayDigits at h3
  rw [Bool.and_eq_true, List.all_eq_true] at h3
  rw [← List.take_append_drop 3 s.toList, List.mem_append] at hb
  rcases hb with hb | hb
  · rw [h1] at hb
    exact months_no_baht m hm hb
  · rw [← List.takeWhile_append_dropWhile (p := isPySpace) (l := s.toList.drop 3),
      List.mem_append] at hb
    rcases hb with hb | hb
    · have := List.mem_takeWhile_imp hb
      exact absurd this (by decide)
    · have := h3.2 _ hb
      exact absurd this (by decide)

theorem matchMonthOnly_mem (s : String) (h : matchMonthOnly s = true) : s ∈ months := by
  unfold matchMonthOnly at h
  rw [List.any_eq_true] at h
  obtain ⟨m, hm, he⟩ := h
  rw [beq_iff_eq] at he
  rwa [← he]

theorem matchMonthOnly_no_baht (s : String) (hb : '฿' ∈ s.toList) :
    matchMonthOnly s = false := by
  by_contra h
  rw [Bool.not_eq_false] at h
  exact months_no_baht s (matchMonthOnly_mem s h) hb

theorem months_toList_ne_nil : ∀ m ∈ months, m.toList ≠ [] := by decide

theorem matchFullDate_ne_empty (s : String) (h : matchFullDate s = true) :
    s.isEmpty = false := by
  unfold matchFullDate at h
  rw [List.any_eq_true] at h
  obtain ⟨m, hm, hf⟩ := h
  simp only [Bool.and_eq_true, beq_iff_eq] at hf
  by_contra hne
  rw [Bool.not_eq_false, isEmpty_iff_toList] at hne
  rw [hne] at hf
  exact months_toList_ne_nil m hm hf.1.symm

theorem captureAfterBaht_shape (cs g : List Char)
    (h : captureAfterBaht cs = some g) : ampShape g := by
  unfold captureAfterBaht at h
  simp only [] at h
  split at h
  · exact absurd h (by simp)
  · rw [Option.some.injEq] at h
    refine ⟨(cs.dropWhile isPySpace).takeWhile isDigitOrComma, _, h.symm, ?_, ?_, ?_⟩
    · rename_i hne
      intro hc
      rw [hc] at hne
      exact hne rfl
    · intro c hc
      exact List.mem_takeWhile_imp hc
    · split
      · rename_i hdot
        rw [beq_iff_eq, List.head?_eq_some_iff] at hdot
        right
        exact ⟨_, rfl, fun c hc => List.mem_takeWhile_imp hc⟩
      · left; rfl

theorem searchBaht_shape (cs g : List Char) (h : searchBaht cs = some g) :
    ampShape g := by
  induction cs with
  | nil => exact absurd h (by simp [searchBaht])
  | cons c cs ih =>
    unfold searchBaht at h
    split at h
    · cases hc : captureAfterBaht cs with
      | some g2 =>
        rw [hc] at h
        simp only [Option.some.injEq] at h
        rw [← h]
        exact captureAfterBaht_shape cs g2 hc
      | none =>
        rw [hc] at h
        exact ih h
    · exact ih h

theorem searchBaht_mem (cs g : List Char) (h : searchBaht cs = some g) :
    '฿' ∈ cs := by
  induction cs with
  | nil => exact absurd h (by simp [searchBaht])
  | cons c cs ih =>
    unfold searchBaht at h
    split at h
    · rename_i hc
      rw [beq_iff_eq] at hc
      rw [hc]
      exact List.mem_cons_self _ _
    · cases h2 : searchBaht cs with
      | some g2 => exact List.mem_cons_of_mem c (ih (h2.trans (by rw [← h, h2])))
      | none => rw [h2] at h; exact absurd h (by simp)

theorem matchAmountFull_shape (s : String) (h : matchAmountFull s = true) :
    ampShape s.toList := by
  unfold matchAmountFull at h
  simp only [Bool.and_eq_true, Bool.or_eq_true] at h
  obtain ⟨hx, hy⟩ := h
  refine ⟨s.toList.takeWhile isDigitOrComma, s.toList.dropWhile isDigitOrComma,
    (List.takeWhile_append_dropWhile _ _).symm, ?_, ?_, ?_⟩
  · intro hc
    rw [hc] at hx
    exact absurd hx (by decide)
  · intro c hc
    exact List.mem_takeWhile_imp hc
  · rcases hy with hy | hy
    · left
      exact List.isEmpty_iff.mp hy
    · obtain ⟨hdot, hall⟩ := hy
      rw [beq_iff_eq, List.head?_eq_some_iff] at hdot
      obtain ⟨t, ht⟩ := hdot
      right
      refine ⟨t, ht, ?_⟩
      intro c hc
      rw [ht, List.tail_cons, List.all_eq_true] at hall
      exact hall c hc

theorem toList_mk (l : List Char) : (String.mk l).toList = l := rfl

theorem parseDecimal_nonneg (s : String) (q : ℚ) (h : parseDecimal s = some q) :
    0 ≤ q := by
  simp only [parseDecimal] at h
  split at h
  · split at h
    · exact absurd h (by simp)
    · rw [Option.some.injEq] at h
      rw [← h]
      positivity
  · split at h
    · split at h
      · rw [Option.some.injEq] at h
        rw [← h]
        positivity
      · exact absurd h (by simp)
    · exact absurd h (by simp)

theorem parseDecimal_ne_empty (s : String) (q : ℚ) (h : parseDecimal s = some q) :
    s.isEmpty = false := by
  by_contra hc
  rw [Bool.not_eq_false, isEmpty_iff_toList] at hc
  have hnone : parseDecimal s = none := by
    simp only [parseDecimal]
    rw [hc]
    rfl
  rw [hnone] at h
  exact absurd h (by simp)

theorem parseDecimal_of_shape (g : List Char) (hs : ampShape g)
    (hd : ∃ c ∈ g, c.isDigit = true) :
    ∃ q, parseDecimal (String.mk (g.filter (fun c => c ≠ ','))) = some q := by
  obtain ⟨x, y, rfl, hxne, hx, hy⟩ := hs
  obtain ⟨c0, hc0mem, hc0⟩ := hd
  have hxd : ∀ c ∈ x.filter (fun c => c ≠ ','), c.isDigit = true := by
    intro c hc
    rw [List.mem_filter] at hc
    obtain ⟨hcx, hcne⟩ := hc
    have hdc := hx c hcx
    rw [isDigitOrComma, Bool.or_eq_true] at hdc
    rcases hdc with hdc | hdc
    · exact hdc
    · rw [beq_iff_eq] at hdc
      rw [decide_eq_true_eq] at hcne
      exact absurd hdc hcne
  rcases hy with rfl | ⟨ds, rfl, hds⟩
  · rw [List.append_nil] at hc0mem ⊢
    have hmem' : c0 ∈ x.filter (fun c => c ≠ ',') := by
      rw [List.mem_filter]
      exact ⟨hc0mem, by simp [isDigit_ne_comma c0 hc0]⟩
    have hx'ne : (x.filter (fun c => c ≠ ',')).isEmpty = false := by
      cases hfe : x.filter (fun c => c ≠ ',') with
      | nil => rw [hfe] at hmem'; exact absurd hmem' (List.not_mem_nil c0)
      | cons a t => rfl
    simp only [parseDecimal, toList_mk]
    rw [takeWhile_all _ hxd, dropWhile_all_none _ hxd]
    simp only [List.isEmpty_nil, if_true, hx'ne, Bool.false_eq_true, if_false]
    exact ⟨_, rfl⟩
  · have hfy : (('.' :: ds).filter (fun c => c ≠ ',')) = '.' :: ds := by
      rw [List.filter_cons]
      simp only [show (decide (('.' : Char) ≠ ',')) = true by decide, if_true]
      rw [List.filter_eq_self.mpr]
      intro a ha
      simp [isDigit_ne_comma a (hds a ha)]
    rw [List.filter_append, hfy]
    simp only [parseDecimal, toList_mk]
    rw [takeWhile_app _ '.' ds hxd (by decide), dropWhile_app _ '.' ds hxd (by decide)]
    simp only [List.isEmpty_cons, Bool.false_eq_true, if_false, List.head?_cons,
      List.tail_cons, beq_self_eq_true, if_true]
    have hall : ds.all Char.isDigit = true := List.all_eq_true.mpr hds
    rw [List.mem_append] at hc0mem
    have hne2 : ((x.filter (fun c => c ≠ ',')).isEmpty && ds.isEmpty) = false := by
      rcases hc0mem with hcm | hcm
      · have hmem' : c0 ∈ x.filter (fun c => c ≠ ',') := by
          rw [List.mem_filter]
          exact ⟨hcm, by simp [isDigit_ne_comma c0 hc0]⟩
        cases hfe : x.filter (fun c => c ≠ ',') with
        | nil => rw [hfe] at hmem'; exact absurd hmem' (List.not_mem_nil c0)
        | cons a t => simp [hfe]
      · rcases List.mem_cons.mp hcm with rfl | hcm
        · exact absurd hc0 (by decide)
        · cases ds with
          | nil => exact absurd hcm (List.not_mem_nil c0)
          | cons a t => simp
    rw [hall, hne2]
    simp only [Bool.not_false, Bool.and_true, if_true]
    exact ⟨_, rfl⟩

theorem tryEmit_ok_some (src d : String) (parts : List String) (g : List Char)
    (t : Transaction) (h : tryEmit src d parts g = .ok (some t)) :
    ∃ q, parseDecimal (String.mk (g.filter (fun c => c ≠ ','))) = some q ∧
      t = ⟨d, buildDescription parts, q, src⟩ ∧
      (buildDescription parts).isEmpty = false := by
  simp only [tryEmit] at h
  split at h
  · rename_i hguard
    rw [Bool.and_eq_true, Bool.and_eq_true] at hguard
    obtain ⟨⟨hd1, hd2⟩, hd3⟩ := hguard
    rw [Bool.not_eq_true'] at hd2
    cases hp : parseDecimal (String.mk (g.filter (fun c => c ≠ ','))) with
    | some q =>
      rw [hp] at h
      simp only [Except.ok.injEq, Option.some.injEq] at h
      exact ⟨q, rfl, h.symm, hd2⟩
    | none =>
      rw [hp] at h
      exact absurd h (by simp)
  · simp at h

theorem tryEmit_no_error (src d : String) (parts : List String) (g : List Char)
    (hs : ampShape g) (hd : ∃ c ∈ g, c.isDigit = true) :
    ∃ r, tryEmit src d parts g = .ok r := by
  simp only [tryEmit]
  split
  · obtain ⟨q, hq⟩ := parseDecimal_of_shape g hs hd
    rw [hq]
    exact ⟨_, rfl⟩
  · exact ⟨_, rfl⟩

theorem collect_emit (src d : String) (parts S : List String)
    (t? : Option Transaction) (n : Nat) (t : Transaction)
    (h : collect src d parts S = .ok (t?, n)) (ht : t? = some t) :
    ∃ parts2 g, tryEmit src d parts2 g = .ok (some t) := by
  induction S generalizing parts n with
  | nil =>
    simp only [collect, Except.ok.injEq, Prod.mk.injEq] at h
    rw [← h.1] at ht
    exact absurd ht (by simp)
  | cons l ls ih =>
    simp only [collect] at h
    by_cases hbaht : (pyStrip l).toList.contains '฿' = true
    · rw [if_pos hbaht] at h
      cases hsb : searchBaht (pyStrip l).toList with
      | some g =>
        simp only [hsb] at h
        cases hte : tryEmit src d parts g with
        | error e => simp [hte] at h
        | ok t2? =>
          simp only [hte, Except.ok.injEq, Prod.mk.injEq] at h
          rw [← h.1] at ht
          rw [ht] at hte
          exact ⟨parts, g, hte⟩
      | none =>
        simp only [hsb] at h
        by_cases hbare : pyStrip l = "฿"
        · rw [if_pos hbare] at h
          cases ls with
          | nil =>
            simp only [Except.ok.injEq, Prod.mk.injEq] at h
            rw [← h.1] at ht
            exact absurd ht (by simp)
          | cons l2 ls2 =>
            by_cases hmf : matchAmountFull (pyStrip l2) = true
            · simp only [hmf, if_true] at h
              cases hte : tryEmit src d parts (pyStrip l2).toList with
              | error e => rw [hte] at h; exact absurd h (by simp)
              | ok t2? =>
                rw [hte] at h
                simp only [Except.ok.injEq, Prod.mk.injEq] at h
                rw [← h.1] at ht
                rw [ht] at hte
                exact ⟨parts, (pyStrip l2).toList, hte⟩
            · simp only [hmf, Bool.false_eq_true, if_false, Except.ok.injEq,
                Prod.mk.injEq] at h
              rw [← h.1] at ht
              exact absurd ht (by simp)
        · rw [if_neg hbare] at h
          simp only [Except.ok.injEq, Prod.mk.injEq] at h
          rw [← h.1] at ht
          exact absurd ht (by simp)
    · rw [if_neg hbaht] at h
      cases hc : collect src d
          (if collectsFragment (pyStrip l) = true then parts ++ [pyStrip l] else parts) ls with
      | error e => simp [hc] at h
      | ok p =>
        obtain ⟨t2?, n2⟩ := p
        simp only [hc, Except.ok.injEq, Prod.mk.injEq] at h
        rw [h.1] at hc
        exact ih _ n2 hc

theorem scanFuel_mem (P : Transaction → Prop)
    (hP : ∀ src d parts g t, tryEmit src d parts g = .ok (some t) → P t)
    (f : Nat) :
    ∀ (src : String) (lines : List String) (acc : List Transaction)
      (r : Except (List Transaction) (List Transaction)),
      scanFuel src f lines acc = some r → (∀ t ∈ acc, P t) →
      ∀ t ∈ resList r, P t := by
  induction f with
  | zero =>
    intro src lines acc r hr hacc
    simp [scanFuel] at hr
  | succ f ih =>
    intro src lines acc r hr hacc
    match lines with
    | [] =>
      simp only [scanFuel, Option.some.injEq] at hr
      rw [← hr]
      exact hacc
    | l :: ls =>
      simp only [scanFuel] at hr
      cases hfd : matchFullDate (pyStrip l) with
      | true =>
        simp only [hfd, if_true] at hr
        cases hc : collect src (pyStrip l) [] ls with
        | error e =>
          rw [hc] at hr
          simp only [Option.some.injEq] at hr
          rw [← hr]
          exact hacc
        | ok p =>
          obtain ⟨t?, n⟩ := p
          rw [hc] at hr
          simp only [] at hr
          apply ih src (ls.drop n) (acc ++ t?.toList) r hr
          intro t ht
          rw [List.mem_append] at ht
          rcases ht with ht | ht
          · exact hacc t ht
          · cases t? with
            | none => exact absurd ht (by simp)
            | some t2 =>
              simp only [Option.toList_some, List.mem_singleton] at ht
              rw [ht]
              obtain ⟨p2, g2, hte⟩ := collect_emit src (pyStrip l) [] ls _ n t2 hc rfl
              exact hP src (pyStrip l) p2 g2 t2 hte
      | false =>
        simp only [hfd, Bool.false_eq_true, if_false] at hr
        cases hmo : matchMonthOnly (pyStrip l) with
        | true =>
          simp only [hmo, if_true] at hr
          match ls, hr with
          | [], hr =>
            simp only [Option.some.injEq] at hr
            rw [← hr]
            exact hacc
          | l2 :: ls2, hr =>
            cases hbd : matchBareDay (pyStrip l2) with
            | true =>
              simp only [hbd, if_true] at hr
              cases hc : collect src (pyStrip l ++ " " ++ pyStrip l2) [] ls2 with
              | error e =>
                rw [hc] at hr
                simp only [Option.some.injEq] at hr
                rw [← hr]
                exact hacc
              | ok p =>
                obtain ⟨t?, n⟩ := p
                rw [hc] at hr
                simp only [] at hr
                apply ih src (ls2.drop n) (acc ++ t?.toList) r hr
                intro t ht
                rw [List.mem_append] at ht
                rcases ht with ht | ht
                · exact hacc t ht
                · cases t? with
                  | none => exact absurd ht (by simp)
                  | some t2 =>
                    simp only [Option.toList_some, List.mem_singleton] at ht
                    rw [ht]
                    obtain ⟨p2, g2, hte⟩ :=
                      collect_emit src (pyStrip l ++ " " ++ pyStrip l2) [] ls2 _ n t2 hc rfl
                    exact hP src (pyStrip l ++ " " ++ pyStrip l2) p2 g2 t2 hte
            | false =>
              simp only [hbd, Bool.false_eq_true, if_false] at hr
              exact ih src (l2 :: ls2) acc r hr hacc
        | false =>
          simp only [hmo, Bool.false_eq_true, if_false] at hr
          exact ih src ls acc r hr hacc

theorem noBareAmountPairs_tail (l : String) (ls : List String)
    (h : noBareAmountPairs (l :: ls) = true) : noBareAmountPairs ls = true := by
  cases ls with
  | nil => rfl
  | cons l2 rest =>
    simp only [noBareAmountPairs, Bool.and_eq_true] at h
    exact h.2

theorem noBareAmountPairs_head (l l2 : String) (ls : List String)
    (h : noBareAmountPairs (l :: l2 :: ls) = true) :
    ((pyStrip l == "฿") && matchAmountFull (pyStrip l2)) = false := by
  simp only [noBareAmountPairs, Bool.and_eq_true] at h
  have hh := h.1
  rwa [Bool.not_eq_true'] at hh

theorem noBareAmountPairs_drop (L : List String) (n : Nat)
    (h : noBareAmountPairs L = true) : noBareAmountPairs (L.drop n) = true := by
  induction L generalizing n with
  | nil => simp [List.drop_nil]; rfl
  | cons l ls ih =>
    cases n with
    | zero => exact h
    | succ n =>
      rw [List.drop_succ_cons]
      exact ih n (noBareAmountPairs_tail l ls h)

theorem collect_no_marker (src d : String) (parts S : List String)
    (h1 : ∀ l ∈ S, searchBaht (pyStrip l).toList = none)
    (h2 : noBareAmountPairs S = true) :
    ∃ n, collect src d parts S = .ok (none, n) := by
  induction S generalizing parts with
  | nil => exact ⟨0, rfl⟩
  | cons l ls ih =>
    simp only [collect]
    by_cases hbaht : (pyStrip l).toList.contains '฿' = true
    · rw [if_pos hbaht]
      rw [h1 l (List.mem_cons_self l ls)]
      by_cases hbare : pyStrip l = "฿"
      · rw [if_pos hbare]
        cases ls with
        | nil => exact ⟨0, rfl⟩
        | cons l2 ls2 =>
          have hpair := noBareAmountPairs_head l l2 ls2 h2
          rw [Bool.and_eq_false_iff] at hpair
          rcases hpair with hpair | hpair
          · rw [hbare] at hpair
            simp at hpair
          · exact ⟨0, by simp [hpair]⟩
      · rw [if_neg hbare]
        exact ⟨0, rfl⟩
    · rw [if_neg hbaht]
      obtain ⟨n, hn⟩ := ih
        (if collectsFragment (pyStrip l) = true then parts ++ [pyStrip l] else parts)
        (fun l2 hl2 => h1 l2 (List.mem_cons_of_mem l hl2))
        (noBareAmountPairs_tail l ls h2)
      rw [hn]
      exact ⟨n + 1, rfl⟩

theorem scanFuel_no_marker (f : Nat) :
    ∀ (src : String) (lines : List String) (acc : List Transaction),
      (∀ l ∈ lines, searchBaht (pyStrip l).toList = none) →
      noBareAmountPairs lines = true → lines.length < f →
      scanFuel src f lines acc = some (.ok acc) := by
  induction f with
  | zero => intro src lines acc h1 h2 hlen; exact absurd hlen (Nat.not_lt_zero _)
  | succ f ih =>
    intro src lines acc h1 h2 hlen
    match lines, hlen with
    | [], _ => rfl
    | l :: ls, hlen =>
      simp only [scanFuel]
      have h1ls : ∀ l2 ∈ ls, searchBaht (pyStrip l2).toList = none :=
        fun l2 hl2 => h1 l2 (List.mem_cons_of_mem l hl2)
      have h2ls := noBareAmountPairs_tail l ls h2
      cases hfd : matchFullDate (pyStrip l) with
      | true =>
        simp only [hfd, if_true]
        obtain ⟨n, hn⟩ := collect_no_marker src (pyStrip l) [] ls h1ls h2ls
        rw [hn]
        simp only [Option.toList_none, List.append_nil]
        apply ih src (ls.drop n) acc
          (fun l2 hl2 => h1ls l2 (List.drop_subset n ls hl2))
          (noBareAmountPairs_drop ls n h2ls)
        simp only [List.length_drop, List.length_cons] at hlen ⊢
        omega
      | false =>
        simp only [hfd, Bool.false_eq_true, if_false]
        cases hmo : matchMonthOnly (pyStrip l) with
        | true =>
          simp only [hmo, if_true]
          match ls, h1ls, h2ls, hlen with
          | [], _, _, _ => rfl
          | l2 :: ls2, h1ls, h2ls, hlen =>
            cases hbd : matchBareDay (pyStrip l2) with
            | true =>
              simp only [hbd, if_true]
              have h1ls2 : ∀ l3 ∈ ls2, searchBaht (pyStrip l3).toList = none :=
                fun l3 hl3 => h1ls l3 (List.mem_cons_of_mem l2 hl3)
              have h2ls2 := noBareAmountPairs_tail l2 ls2 h2ls
              obtain ⟨n, hn⟩ :=
                collect_no_marker src (pyStrip l ++ " " ++ pyStrip l2) [] ls2 h1ls2 h2ls2
              rw [hn]
              simp only [Option.toList_none, List.append_nil]
              apply ih src (ls2.drop n) acc
                (fun l3 hl3 => h1ls2 l3 (List.drop_subset n ls2 hl3))
                (noBareAmountPairs_drop ls2 n h2ls2)
              simp only [List.length_drop, List.length_cons] at hlen ⊢
              omega
            | false =>
              simp only [hbd, Bool.false_eq_true, if_false]
              apply ih src (l2 :: ls2) acc h1ls h2ls
              simp only [List.length_cons] at hlen ⊢
              omega
        | false =>
          simp only [hmo, Bool.false_eq_true, if_false]
          apply ih src ls acc h1ls h2ls
          simp only [List.length_cons] at hlen ⊢
          omega

theorem digitCaptures_search (l : String) (g : List Char)
    (h : digitCaptures l = true) (hg : searchBaht (pyStrip l).toList = some g) :
    ∃ c ∈ g, c.isDigit = true := by
  unfold digitCaptures at h
  rw [Bool.and_eq_true] at h
  have h1 := h.1
  rw [hg] at h1
  simp only [] at h1
  exact List.any_eq_true.mp h1

theorem digitCaptures_bare (l : String) (h : digitCaptures l = true)
    (hm : matchAmountFull (pyStrip l) = true) :
    ∃ c ∈ (pyStrip l).toList, c.isDigit = true := by
  unfold digitCaptures at h
  rw [Bool.and_eq_true] at h
  have h2 := h.2
  rw [Bool.or_eq_true] at h2
  rcases h2 with h2 | h2
  · rw [Bool.not_eq_true'] at h2
    rw [h2] at hm
    exact absurd hm (by simp)
  · exact List.any_eq_true.mp h2

theorem collect_no_error (src d : String) (parts S : List String)
    (h : ∀ l ∈ S, digitCaptures l = true) :
    ∃ p, collect src d parts S = .ok p := by
  induction S generalizing parts with
  | nil => exact ⟨(none, 0), rfl⟩
  | cons l ls ih =>
    simp only [collect]
    by_cases hbaht : (pyStrip l).toList.contains '฿' = true
    · rw [if_pos hbaht]
      cases hsb : searchBaht (pyStrip l).toList with
      | some g =>
        obtain ⟨r, hr⟩ := tryEmit_no_error src d parts g
          (searchBaht_shape _ g hsb) (digitCaptures_search l g (h l (List.mem_cons_self l ls)) hsb)
        simp only [hsb, hr]
        exact ⟨(r, 0), rfl⟩
      | none =>
        simp only [hsb]
        by_cases hbare : pyStrip l = "฿"
        · rw [if_pos hbare]
          cases ls with
          | nil => exact ⟨(none, 0), rfl⟩
          | cons l2 ls2 =>
            by_cases hmf : matchAmountFull (pyStrip l2) = true
            · obtain ⟨r, hr⟩ := tryEmit_no_error src d parts (pyStrip l2).toList
                (matchAmountFull_shape _ hmf)
                (digitCaptures_bare l2 (h l2 (by simp)) hmf)
              simp only [hmf, if_true, hr]
              exact ⟨(r, 1), rfl⟩
            · exact ⟨(none, 0), by simp [hmf]⟩
        · rw [if_neg hbare]
          exact ⟨(none, 0), rfl⟩
    · rw [if_neg hbaht]
      obtain ⟨⟨t?, n⟩, hn⟩ := ih
        (if collectsFragment (pyStrip l) = true then parts ++ [pyStrip l] else parts)
        (fun l2 hl2 => h l2 (List.mem_cons_of_mem l hl2))
      rw [hn]
      exact ⟨(t?, n + 1), rfl⟩

theorem scanFuel_no_error (f : Nat) :
    ∀ (src : String) (lines : List String) (acc : List Transaction),
      (∀ l ∈ lines, digitCaptures l = true) → lines.length < f →
      ∃ ts, scanFuel src f lines acc = some (.ok ts) := by
  induction f with
  | zero => intro src lines acc h hlen; exact absurd hlen (Nat.not_lt_zero _)
  | succ f ih =>
    intro src lines acc h hlen
    match lines, hlen with
    | [], _ => exact ⟨acc, rfl⟩
    | l :: ls, hlen =>
      simp only [scanFuel]
      have hls : ∀ l2 ∈ ls, digitCaptures l2 = true :=
        fun l2 hl2 => h l2 (List.mem_cons_of_mem l hl2)
      cases hfd : matchFullDate (pyStrip l) with
      | true =>
        simp only [hfd, if_true]
        obtain ⟨⟨t?, n⟩, hc⟩ := collect_no_error src (pyStrip l) [] ls hls
        rw [hc]
        apply ih src (ls.drop n) (acc ++ t?.toList)
          (fun l2 hl2 => hls l2 (List.drop_subset n ls hl2))
        simp only [List.length_drop, List.length_cons] at hlen ⊢
        omega
      | false =>
        simp only [hfd, Bool.false_eq_true, if_false]
        cases hmo : matchMonthOnly (pyStrip l) with
        | true =>
          simp only [hmo, if_true]
          match ls, hls, hlen with
          | [], _, _ => exact ⟨acc, rfl⟩
          | l2 :: ls2, hls, hlen =>
            cases hbd : matchBareDay (pyStrip l2) with
            | true =>
              simp only [hbd, if_true]
              have hls2 : ∀ l3 ∈ ls2, digitCaptures l3 = true :=
                fun l3 hl3 => hls l3 (List.mem_cons_of_mem l2 hl3)
              obtain ⟨⟨t?, n⟩, hc⟩ :=
                collect_no_error src (pyStrip l ++ " " ++ pyStrip l2) [] ls2 hls2
              rw [hc]
              apply ih src (ls2.drop n) (acc ++ t?.toList)
                (fun l3 hl3 => hls2 l3 (List.drop_subset n ls2 hl3))
              simp only [List.length_drop, List.length_cons] at hlen ⊢
              omega
            | false =>
              simp only [hbd, Bool.false_eq_true, if_false]
              apply ih src (l2 :: ls2) acc hls
              simp only [List.length_cons] at hlen ⊢
              omega
        | false =>
          simp only [hmo, Bool.false_eq_true, if_false]
          apply ih src ls acc hls
          simp only [List.length_cons] at hlen ⊢
          omega

theorem collect_mids (src d : String) (mids : List String) :
    ∀ (parts rest0 : List String),
      (∀ l ∈ mids, (pyStrip l).toList.contains '฿' = false) →
      collect src d parts (mids ++ rest0) =
        (collect src d (parts ++ (mids.map pyStrip).filter collectsFragment) rest0).map
          (fun p => (p.1, p.2 + mids.length)) := by
  induction mids with
  | nil =>
    intro parts rest0 hnob
    simp only [List.nil_append, List.map_nil, List.filter_nil, List.append_nil,
      List.length_nil]
    cases hc : collect src d parts rest0 with
    | error e => rfl
    | ok p => rfl
  | cons mid mids ih =>
    intro parts rest0 hnob
    have hmid := hnob mid (List.mem_cons_self mid mids)
    have htail : ∀ l ∈ mids, (pyStrip l).toList.contains '฿' = false :=
      fun l hl => hnob l (List.mem_cons_of_mem mid hl)
    simp only [List.cons_append, collect, List.append_eq]
    rw [if_neg (by rw [hmid]; exact Bool.false_ne_true)]
    rw [List.map_cons, List.filter_cons]
    cases hcf : collectsFragment (pyStrip mid) with
    | true =>
      simp only [hcf, if_true]
      rw [ih (parts ++ [pyStrip mid]) rest0 htail]
      rw [show parts ++ [pyStrip mid] ++ (mids.map pyStrip).filter collectsFragment =
        parts ++ (pyStrip mid :: (mids.map pyStrip).filter collectsFragment) by simp]
      cases hc : collect src d
          (parts ++ (pyStrip mid :: (mids.map pyStrip).filter collectsFragment)) rest0 with
      | error e => simp [hc, Except.map]
      | ok p =>
        obtain ⟨t?, n⟩ := p
        simp [hc, Except.map, List.length_cons]
        omega
    | false =>
      simp only [hcf, Bool.false_eq_true, if_false]
      rw [ih parts rest0 htail]
      cases hc : collect src d
          (parts ++ (mids.map pyStrip).filter collectsFragment) rest0 with
      | error e => simp [hc, Except.map]
      | ok p =>
        obtain ⟨t?, n⟩ := p
        simp [hc, Except.map, List.length_cons]
        omega

theorem contains_of_mem (a : Char) (cs : List Char) (h : a ∈ cs) :
    cs.contains a = true :=
  List.elem_eq_true_of_mem h

theorem append_isEmpty_false (a b : String) (ha : a.isEmpty = false) :
    (a ++ b).isEmpty = false := by
  by_contra hc
  rw [Bool.not_eq_false, isEmpty_iff_toList] at hc
  rw [show (a ++ b).toList = a.toList ++ b.toList from String.data_append a b] at hc
  rw [List.append_eq_nil] at hc
  rw [(isEmpty_iff_toList a).mpr hc.1] at ha
  exact absurd ha (by simp)

theorem buildDescription_isEmpty_false (p0 : String) (l : List String)
    (h : p0.isEmpty = false) :
    (buildDescription (p0 :: l)).isEmpty = false := by
  cases hf : l.find? qualifies with
  | some p =>
    simp only [buildDescription, hf]
    exact append_isEmpty_false _ _ (append_isEmpty_false _ _ h)
  | none =>
    simp only [buildDescription, hf]
    exact h

theorem tryEmit_eval (src dStr : String) (parts : List String) (g : List Char)
    (q : ℚ) (hdne : dStr.isEmpty = false)
    (hdesc : (buildDescription parts).isEmpty = false)
    (hq : parseDecimal (String.mk (g.filter (fun ch => ch ≠ ','))) = some q) :
    tryEmit src dStr parts g = .ok (some ⟨dStr, buildDescription parts, q, src⟩) := by
  have hamt := parseDecimal_ne_empty _ q hq
  simp only [tryEmit, hdne, hdesc, hamt, hq, Bool.not_false, Bool.and_self, if_true]

theorem collect_single_baht (src dStr c : String) (parts : List String)
    (g : List Char) (q : ℚ)
    (hsb : searchBaht (pyStrip c).toList = some g)
    (hdne : dStr.isEmpty = false)
    (hdesc : (buildDescription parts).isEmpty = false)
    (hq : parseDecimal (String.mk (g.filter (fun ch => ch ≠ ','))) = some q) :
    collect src dStr parts [c] =
      .ok (some ⟨dStr, buildDescription parts, q, src⟩, 0) := by
  have hbc : (pyStrip c).toList.contains '฿' = true :=
    contains_of_mem _ _ (searchBaht_mem _ g hsb)
  simp only [collect, hbc, if_true, hsb,
    tryEmit_eval src dStr parts g q hdne hdesc hq]

theorem filtered_parts_head (mids : List String)
    (hne : ∃ l ∈ mids, collectsFragment (pyStrip l) = true) :
    ∃ p0 rest, (mids.map pyStrip).filter collectsFragment = p0 :: rest ∧
      p0.isEmpty = false := by
  obtain ⟨l, hl, hcf⟩ := hne
  have hmem : pyStrip l ∈ (mids.map pyStrip).filter collectsFragment :=
    List.mem_filter.mpr ⟨List.mem_map_of_mem pyStrip hl, hcf⟩
  cases hfe : (mids.map pyStrip).filter collectsFragment with
  | nil => rw [hfe] at hmem; exact absurd hmem (List.not_mem_nil _)
  | cons p0 rest =>
    refine ⟨p0, rest, rfl, ?_⟩
    have hp0mem : p0 ∈ (mids.map pyStrip).filter collectsFragment := by
      rw [hfe]
      exact List.mem_cons_self _ _
    have hp0 : collectsFragment p0 = true := List.of_mem_filter hp0mem
    unfold collectsFragment at hp0
    simp only [Bool.and_eq_true] at hp0
    have h3 := hp0.1.1.1.1
    rwa [Bool.not_eq_true'] at h3

theorem scan_entry (src d c : String) (mids : List String) (g : List Char) (q : ℚ)
    (hd : matchFullDate (pyStrip d) = true)
    (hnob : ∀ l ∈ mids, (pyStrip l).toList.contains '฿' = false)
    (hne : ∃ l ∈ mids, collectsFragment (pyStrip l) = true)
    (hsb : searchBaht (pyStrip c).toList = some g)
    (hq : parseDecimal (String.mk (g.filter (fun ch => ch ≠ ','))) = some q) :
    scan src (d :: (mids ++ [c])) [] =
      .ok [⟨pyStrip d, buildDescription ((mids.map pyStrip).filter collectsFragment),
        q, src⟩] := by
  obtain ⟨p0, prest, hfe, hp0⟩ := filtered_parts_head mids hne
  have hdesc : (buildDescription ((mids.map pyStrip).filter collectsFragment)).isEmpty
      = false := by
    rw [hfe]
    exact buildDescription_isEmpty_false _ _ hp0
  have hdne : (pyStrip d).isEmpty = false := matchFullDate_ne_empty _ hd
  have hcollect := collect_mids src (pyStrip d) mids [] [c] hnob
  rw [List.nil_append] at hcollect
  rw [collect_single_baht src (pyStrip d) c ((mids.map pyStrip).filter collectsFragment)
    g q hsb hdne hdesc hq] at hcollect
  simp only [Except.map] at hcollect
  rw [scan.eq_def]
  simp only [hd, if_true]
  rw [hcollect]
  simp only [Nat.zero_add, Option.toList_some, List.nil_append]
  rw [List.drop_left]
  have hbc : '฿' ∈ (pyStrip c).toList := searchBaht_mem _ g hsb
  rw [scan.eq_def]
  simp only [matchFullDate_no_baht _ hbc, matchMonthOnly_no_baht _ hbc,
    Bool.false_eq_true, if_false]
  rw [scan.eq_def]

theorem months_facts : ∀ m ∈ months, pyStrip m = m ∧ matchFullDate m = false ∧
    m.toList.length = 3 ∧ (∀ ch ∈ m.toList, isPySpace ch = false) := by decide

theorem matchBareDay_digits (s : String) (h : matchBareDay s = true) :
    ∀ ch ∈ s.toList, ch.isDigit = true := by
  unfold matchBareDay matchDayDigits at h
  rw [Bool.and_eq_true] at h
  exact List.all_eq_true.mp h.2

theorem matchBareDay_ne_nil (s : String) (h : matchBareDay s = true) :
    s.toList ≠ [] := by
  unfold matchBareDay matchDayDigits at h
  rw [Bool.and_eq_true] at h
  intro hc
  rw [hc] at h
  have := h.1
  simp at this

theorem pyStrip_of_digits (s : String) (h : matchBareDay s = true) :
    pyStrip s = s :=
  pyStrip_id _ (fun ch hch => isDigit_not_space ch (matchBareDay_digits s h ch hch))

theorem month_day_toList (m dstr : String) :
    (m ++ " " ++ dstr).toList = m.toList ++ ' ' :: dstr.toList := by
  rw [show (m ++ " " ++ dstr).toList = (m ++ " ").toList ++ dstr.toList from
    String.data_append _ _]
  rw [show (m ++ " ").toList = m.toList ++ [' '] from String.data_append _ _]
  rw [List.append_assoc, List.singleton_append]

theorem pyStrip_month_day (m dstr : String) (hm : matchMonthOnly m = true)
    (hd : matchBareDay dstr = true) :
    pyStrip (m ++ " " ++ dstr) = m ++ " " ++ dstr := by
  obtain ⟨hstrip_m, hfd_m, hlen_m, hchars_m⟩ := months_facts m (matchMonthOnly_mem m hm)
  unfold pyStrip
  rw [month_day_toList]
  obtain ⟨mc, mrest, hmc⟩ : ∃ c cs, m.toList = c :: cs := by
    cases hml : m.toList with
    | nil => rw [hml] at hlen_m; exact absurd hlen_m (by simp)
    | cons c cs => exact ⟨c, cs, rfl⟩
  obtain ⟨dinit, dlast, hdl⟩ : ∃ l b, dstr.toList = l ++ [b] := by
    rcases List.eq_nil_or_concat dstr.toList with hc | ⟨l, b, hc⟩
    · exact absurd hc (matchBareDay_ne_nil dstr hd)
    · rw [List.concat_eq_append] at hc
      exact ⟨l, b, hc⟩
  rw [hmc, hdl]
  rw [show mc :: mrest ++ ' ' :: (dinit ++ [dlast]) =
    mc :: ((mrest ++ ' ' :: dinit) ++ [dlast]) by simp]
  rw [pyStripList_sandwich mc dlast (mrest ++ ' ' :: dinit)
    (hchars_m mc (by rw [hmc]; exact List.mem_cons_self _ _))
    (isDigit_not_space dlast (matchBareDay_digits dstr hd dlast
      (by rw [hdl]; exact List.mem_append_right _ (List.mem_singleton.mpr rfl))))]
  rw [show (mc :: ((mrest ++ ' ' :: dinit) ++ [dlast])) =
    (m ++ " " ++ dstr).toList by rw [month_day_toList, hmc, hdl]; simp]
  exact strMk_toList _

theorem matchFullDate_month_day (m dstr : String) (hm : matchMonthOnly m = true)
    (hd : matchBareDay dstr = true) :
    matchFullDate (m ++ " " ++ dstr) = true := by
  obtain ⟨hstrip_m, hfd_m, hlen_m, hchars_m⟩ := months_facts m (matchMonthOnly_mem m hm)
  unfold matchFullDate
  rw [List.any_eq_true]
  refine ⟨m, matchMonthOnly_mem m hm, ?_⟩
  simp only [month_day_toList, Bool.and_eq_true, beq_iff_eq]
  have hdig := matchBareDay_digits dstr hd
  refine ⟨?_, ?_, ?_⟩
  · rw [← hlen_m, List.take_left]
  · rw [← hlen_m, List.drop_left]
    rw [List.takeWhile_cons]
    simp [show isPySpace ' ' = true from by decide]
  · rw [← hlen_m, List.drop_left]
    rw [List.dropWhile_cons]
    simp only [show isPySpace ' ' = true by decide, if_true]
    rw [dropWhile_id dstr.toList (fun ch hch => isDigit_not_space ch (hdig ch hch))]
    exact hd

theorem matchFullDate_month (m : String) (hm : matchMonthOnly m = true) :
    matchFullDate (pyStrip m) = false := by
  obtain ⟨hstrip_m, hfd_m, _, _⟩ := months_facts m (matchMonthOnly_mem m hm)
  rw [hstrip_m]
  exact hfd_m

theorem scan_split_date (src m dstr : String) (rest : List String)
    (acc : List Transaction) (hm : matchMonthOnly m = true)
    (hd : matchBareDay dstr = true) :
    scan src (m :: dstr :: rest) acc = scan src ((m ++ " " ++ dstr) :: rest) acc := by
  obtain ⟨hstrip_m, hfd_m, hlen_m, hchars_m⟩ := months_facts m (matchMonthOnly_mem m hm)
  have hstrip_d := pyStrip_of_digits dstr hd
  rw [scan.eq_def]
  simp only [hstrip_m, hfd_m, Bool.false_eq_true, if_false, hm, if_true, hstrip_d, hd]
  conv_rhs => rw [scan.eq_def]
  simp only [pyStrip_month_day m dstr hm hd, matchFullDate_month_day m dstr hm hd, if_true]

theorem extractPage_mem (P : Transaction → Prop)
    (hP : ∀ src d parts g t, tryEmit src d parts g = .ok (some t) → P t)
    (src : String) (lines : List String) :
    ∀ t ∈ extractPage src lines, P t := by
  have hc := scanFuel_complete (lines.length + 1) src lines [] (Nat.lt_succ_self _)
  have hm := scanFuel_mem P hP (lines.length + 1) src lines [] (scan src lines []) hc
    (by intro t ht; exact absurd ht (List.not_mem_nil t))
  intro t ht
  exact hm t ht

/-- C1 (counterexample): on the input `["Jun 17", "฿50.00"]` a valid date token
is immediately followed by a currency-marker line with a parseable number and
no description fragment in between, yet the parser emits zero records — not
the one record the claim asserts — because the emission guard of line 133
requires a non-empty description. -/
theorem claimC1_counterexample :
    extractPage "stmt.pdf" ["Jun 17", "฿50.00"] = [] :=
  extractPage_of_scanFuel _ _ _ (by with_unfolding_all decide)

/-- C1 (amended): for every date line followed by intermediate lines that
contain no currency marker — boilerplate and metadata lines freely
interleaved, since they are skipped — of which at least one is collected
as a description fragment, and then a currency-marker line whose captured
token parses to a number, the parser emits exactly one record carrying
that date and that amount.  (The original claim also covered the case
where no fragment at all is collected; there the record is dropped by the
emission guard.) -/
theorem claimC1_amended (src d c : String) (mids : List String) (g : List Char)
    (q : ℚ)
    (hd : matchFullDate (pyStrip d) = true)
    (hnob : ∀ l ∈ mids, (pyStrip l).toList.contains '฿' = false)
    (hne : ∃ l ∈ mids, collectsFragment (pyStrip l) = true)
    (hsb : searchBaht (pyStrip c).toList = some g)
    (hq : parseDecimal (String.mk (g.filter (fun ch => ch ≠ ','))) = some q) :
    extractPage src (d :: (mids ++ [c])) =
      [⟨pyStrip d, buildDescription ((mids.map pyStrip).filter collectsFragment),
        q, src⟩] := by
  unfold extractPage
  rw [scan_entry src d c mids g q hd hnob hne hsb hq]
  rfl

/-- C1 (witness): the amended theorem applied to a concrete entry where a
boilerplate line is interleaved between the collected fragment and the
currency-marker line. -/
theorem claimC1_amended_witness :
    matchFullDate (pyStrip "Jun 15") = true ∧
    extractPage "stmt.pdf"
      ["Jun 15", "STARBUCKS", "Will appear on your next statement", "฿125.50"] =
      [⟨"Jun 15", "STARBUCKS", (125.5 : ℚ), "stmt.pdf"⟩] := by
  constructor
  · decide
  · exact claimC1_amended "stmt.pdf" "Jun 15" "฿125.50"
      ["STARBUCKS", "Will appear on your next statement"]
      "125.50".toList 125.5 (by decide) (by decide) (by decide) (by decide)
      (by with_unfolding_all decide)

/-- C2 (counterexample): on the literal input
`["Jun 17", "Will appear on your next statement", "฿50.00"]` the parser
emits zero records, not the one record with empty description the claim
asserts: the boilerplate line is excluded from the fragments, so the
description is the empty string and the guard of line 133 drops the
record. -/
theorem claimC2_counterexample :
    extractPage "stmt.pdf"
      ["Jun 17", "Will appear on your next statement", "฿50.00"] = [] :=
  extractPage_of_scanFuel _ _ _ (by with_unfolding_all decide)

/-- C2 (amended): on that input the parser emits zero records and signals
no error — the date and amount are recognized, but the collected
description is empty, so the emission guard silently drops the entry. -/
theorem claimC2_amended :
    scan "stmt.pdf" ["Jun 17", "Will appear on your next statement", "฿50.00"] []
      = Except.ok [] ∧
    extractPage "stmt.pdf"
      ["Jun 17", "Will appear on your next statement", "฿50.00"] = [] := by
  constructor
  · exact scan_of_scanFuel _ _ _ _ (by with_unfolding_all decide)
  · exact extractPage_of_scanFuel _ _ _ (by with_unfolding_all decide)

/-- C3 (counterexample): the error branch of the amount conversion is
reachable: on `["Jun 15", "X12", "฿,."]` the capture regex matches the
token `,.`, comma-stripping leaves `.` (non-empty, so the guard passes),
and the float conversion fails — the loop aborts with the exception,
modelled as `Except.error` carrying the records accumulated so far. -/
theorem claimC3_counterexample :
    scan "stmt.pdf" ["Jun 15", "X12", "฿,."] [] = Except.error [] :=
  scan_of_scanFuel _ _ _ _ (by with_unfolding_all decide)

/-- C3 (amended): the float-conversion error branch is unreachable on
every input whose amount captures all contain at least one digit; on such
inputs the scan finishes without raising. -/
theorem claimC3_amended (src : String) (lines : List String)
    (h : ∀ l ∈ lines, digitCaptures l = true) :
    ∃ ts, scan src lines [] = Except.ok ts := by
  obtain ⟨ts, hts⟩ := scanFuel_no_error (lines.length + 1) src lines [] h
    (Nat.lt_succ_self _)
  have hc := scanFuel_complete (lines.length + 1) src lines [] (Nat.lt_succ_self _)
  rw [hts] at hc
  exact ⟨ts, (Option.some.inj hc).symm⟩

/-- C3 (witness): the amended theorem applied to a concrete input whose
capture `125.50` contains digits. -/
theorem claimC3_amended_witness :
    (∀ l ∈ ["Jun 15", "X12", "฿125.50"], digitCaptures l = true) ∧
    ∃ ts, scan "stmt.pdf" ["Jun 15", "X12", "฿125.50"] [] = Except.ok ts :=
  ⟨by decide, claimC3_amended "stmt.pdf" ["Jun 15", "X12", "฿125.50"] (by decide)⟩

/-- C4: every record the parser emits has a non-empty description — the
emission guard of line 133 requires the assembled description to be
truthy, so an entry with no (or only boilerplate) fragments is never
emitted even when its date and amount were recognized. -/
theorem claimC4_description_nonempty (src : String) (lines : List String)
    (t : Transaction) (ht : t ∈ extractPage src lines) :
    t.description ≠ "" := by
  refine extractPage_mem (fun t => t.description ≠ "") ?_ src lines t ht
  intro src2 d parts g t2 hemit
  obtain ⟨q, hq, ht2, hde⟩ := tryEmit_ok_some src2 d parts g t2 hemit
  rw [ht2]
  intro hc
  rw [show (⟨d, buildDescription parts, q, src2⟩ : Transaction).description =
    buildDescription parts from rfl] at hc
  rw [hc] at hde
  exact absurd hde (by decide)

/-- C4 (witness): a concretely emitted record, shown to be in the output
and to have a non-empty description. -/
theorem claimC4_witness :
    (⟨"Jun 15", "STARBUCKS", (125.5 : ℚ), "w.pdf"⟩ : Transaction) ∈
      extractPage "w.pdf" ["Jun 15", "STARBUCKS", "฿125.50"] ∧
    (⟨"Jun 15", "STARBUCKS", (125.5 : ℚ), "w.pdf"⟩ : Transaction).description ≠ "" := by
  have hmem : (⟨"Jun 15", "STARBUCKS", (125.5 : ℚ), "w.pdf"⟩ : Transaction) ∈
      extractPage "w.pdf" ["Jun 15", "STARBUCKS", "฿125.50"] := by
    rw [extractPage_of_scanFuel "w.pdf" ["Jun 15", "STARBUCKS", "฿125.50"]
      [⟨"Jun 15", "STARBUCKS", (125.5 : ℚ), "w.pdf"⟩] (by with_unfolding_all decide)]
    exact List.mem_singleton.mpr rfl
  exact ⟨hmem, claimC4_description_nonempty "w.pdf" _ _ hmem⟩

/-- C5: the literal input `["Jun", "16", "7-ELEVEN", "฿", "89.00"]` yields
exactly one record with date `Jun 16`, description `7-ELEVEN`, amount
89.00 — the split month/day pair is consumed as one date, and the bare `฿`
line resolves its amount from the following line. -/
theorem claimC5_split_date_and_bare_marker :
    extractPage "stmt.pdf" ["Jun", "16", "7-ELEVEN", "฿", "89.00"] =
      [⟨"Jun 16", "7-ELEVEN", (89 : ℚ), "stmt.pdf"⟩] :=
  extractPage_of_scanFuel _ _ _ (by with_unfolding_all decide)

/-- C6: the literal input `["Jun 15", "STARBUCKS", "BANGKOK TH", "฿125.50"]`
yields exactly one record with date `Jun 15`, description
`STARBUCKS BANGKOK TH` (primary fragment plus the first qualifying later
fragment), and amount 125.50. -/
theorem claimC6_two_fragment_description :
    extractPage "stmt.pdf" ["Jun 15", "STARBUCKS", "BANGKOK TH", "฿125.50"] =
      [⟨"Jun 15", "STARBUCKS BANGKOK TH", (125.5 : ℚ), "stmt.pdf"⟩] :=
  extractPage_of_scanFuel _ _ _ (by with_unfolding_all decide)

/-- C7: when no line of the input resolves an amount — no line's search for
the currency marker captures a number, and no line stripping to a bare `฿`
is followed by a full bare-amount line — the parser emits zero records and
signals no error, even when date tokens are recognized; no partial record
is ever produced. -/
theorem claimC7_no_amount_no_record (src : String) (lines : List String)
    (h1 : ∀ l ∈ lines, searchBaht (pyStrip l).toList = none)
    (h2 : noBareAmountPairs lines = true) :
    scan src lines [] = Except.ok [] ∧ extractPage src lines = [] := by
  have hnm := scanFuel_no_marker (lines.length + 1) src lines [] h1 h2
    (Nat.lt_succ_self _)
  have hc := scanFuel_complete (lines.length + 1) src lines [] (Nat.lt_succ_self _)
  rw [hnm] at hc
  have hscan := (Option.some.inj hc).symm
  exact ⟨hscan, by unfold extractPage; rw [hscan]; rfl⟩

/-- C7 (witness): the theorem applied to the spec's literal dropped-record
example `["Jun 18", "SHOP X"]`. -/
theorem claimC7_witness :
    (∀ l ∈ ["Jun 18", "SHOP X"], searchBaht (pyStrip l).toList = none) ∧
    noBareAmountPairs ["Jun 18", "SHOP X"] = true ∧
    extractPage "stmt.pdf" ["Jun 18", "SHOP X"] = [] := by
  refine ⟨by decide, by decide, ?_⟩
  exact (claimC7_no_amount_no_record "stmt.pdf" ["Jun 18", "SHOP X"]
    (by decide) (by decide)).2

/-- C8: a split date token normalizes to the same date as the single-line
token and the scan continues identically: for every month abbreviation m,
one-or-two-digit day string d and remaining lines, the parser's output on
`[m, d] ++ rest` equals its output on `[m ++ " " ++ d] ++ rest`. -/
theorem claimC8_split_date_normalizes (src m dstr : String) (rest : List String)
    (hm : matchMonthOnly m = true) (hd : matchBareDay dstr = true) :
    extractPage src (m :: dstr :: rest) =
      extractPage src ((m ++ " " ++ dstr) :: rest) := by
  unfold extractPage
  rw [scan_split_date src m dstr rest [] hm hd]

/-- C8 (witness): the theorem applied at m = `Jun`, d = `16` with a
concrete remainder. -/
theorem claimC8_witness :
    matchMonthOnly "Jun" = true ∧ matchBareDay "16" = true ∧
    extractPage "stmt.pdf" ["Jun", "16", "7-ELEVEN", "฿89.00"] =
      extractPage "stmt.pdf" ["Jun 16", "7-ELEVEN", "฿89.00"] := by
  refine ⟨by decide, by decide, ?_⟩
  exact claimC8_split_date_normalizes "stmt.pdf" "Jun" "16"
    ["7-ELEVEN", "฿89.00"] (by decide) (by decide)

/-- C9: the outer scan terminates on every finite input: a fuel of one more
than the number of lines always suffices, because every iteration of the
loop strictly advances the cursor (in particular a currency-marker line at
which the inner loop stopped can never match a date pattern, so the scan
skips past it). -/
theorem claimC9_terminates (src : String) (lines : List String)
    (acc : List Transaction) :
    scanFuel src (lines.length + 1) lines acc = some (scan src lines acc) :=
  scanFuel_complete (lines.length + 1) src lines acc (Nat.lt_succ_self _)

/-- C10: every emitted amount is non-negative — the amount regexes admit
only digits, commas and a decimal point, so no sign is ever captured and
the parsed value is a non-negative decimal. -/
theorem claimC10_amount_nonneg (src : String) (lines : List String)
    (t : Transaction) (ht : t ∈ extractPage src lines) :
    0 ≤ t.amount_thb := by
  refine extractPage_mem (fun t => 0 ≤ t.amount_thb) ?_ src lines t ht
  intro src2 d parts g t2 hemit
  obtain ⟨q, hq, ht2, _⟩ := tryEmit_ok_some src2 d parts g t2 hemit
  rw [ht2]
  exact parseDecimal_nonneg _ q hq

/-- C10 (witness): a concretely emitted record, shown to be in the output
and to carry a non-negative amount. -/
theorem claimC10_witness :
    (⟨"Jun 20", "GRAB", (42 : ℚ), "w2.pdf"⟩ : Transaction) ∈
      extractPage "w2.pdf" ["Jun 20", "GRAB", "฿42.00"] ∧
    (0 : ℚ) ≤ (⟨"Jun 20", "GRAB", (42 : ℚ), "w2.pdf"⟩ : Transaction).amount_thb := by
  have hmem : (⟨"Jun 20", "GRAB", (42 : ℚ), "w2.pdf"⟩ : Transaction) ∈
      extractPage "w2.pdf" ["Jun 20", "GRAB", "฿42.00"] := by
    rw [extractPage_of_scanFuel "w2.pdf" ["Jun 20", "GRAB", "฿42.00"]
      [⟨"Jun 20", "GRAB", (42 : ℚ), "w2.pdf"⟩] (by with_unfolding_all decide)]
    exact List.mem_singleton.mpr rfl
  exact ⟨hmem, claimC10_amount_nonneg "w2.pdf" _ _ hmem⟩
